import Mathlib

/-!
# kube-aws-iam-controller: session names and external ID prefixes

A shallow embedding of `external_id.go` and of the session-name part of
`credentials_getter.go`, followed by the properties proved about them.

## Conventions of the embedding

* A Go `string` is a byte sequence.  It is embedded as a `List Char`, one
  `Char` per byte (the byte `b` is `Char.ofNat b`); `len` is `List.length`,
  `s[:k]` keeps the first `k` elements.  The literals of the program are ASCII.
* A Go `int` holding a length or a budget is an `Int`; every value the code
  computes is within a few string lengths of zero, so no wrap-around occurs.
* A function that can return an error or stop in a run-time panic returns an
  `Outcome`.
-/

set_option autoImplicit false

namespace KubeAwsIam

/-- The embedding of a Go string: its bytes in order. -/
abbrev GoString := List Char

/-- How a Go call ends: with a value, with a non-nil `error` carrying a
message, or in a run-time panic. -/
inductive Outcome (α : Type) where
  | value (v : α)
  | failure (msg : GoString)
  | panicked
  deriving DecidableEq, Repr

/-! ## Library functions of package `strings` and slicing -/

/-- Model of `strings.Split(s, sep)` for a one-byte separator: the pieces of `s`
between the occurrences of `sep`; there is always at least one piece. -/
def stringsSplit (s : GoString) (sep : Char) : List GoString :=
  match s with
  | [] => [[]]
  | c :: cs =>
    if c = sep then [] :: stringsSplit cs sep
    else ((stringsSplit cs sep).headD [] |>.cons c) :: (stringsSplit cs sep).tail

/-- Model of `strings.HasPrefix`. -/
def stringsHasPrefix (s pre : GoString) : Bool := pre.isPrefixOf s

/-- Model of `strings.HasSuffix`. -/
def stringsHasSuffix (s suf : GoString) : Bool := suf.isSuffixOf s

/-- Model of `strings.TrimPrefix`: `s` without the leading `pre`, or `s`. -/
def stringsTrimPrefix (s pre : GoString) : GoString :=
  if stringsHasPrefix s pre then s.drop pre.length else s

/-- Model of `strings.TrimSuffix`: `s` without the trailing `suf`, or `s`. -/
def stringsTrimSuffix (s suf : GoString) : GoString :=
  if stringsHasSuffix s suf then s.take (s.length - suf.length) else s

/-- Model of `strings.Replace(s, old, new, -1)` for one-byte `old` and `new`. -/
def stringsReplaceAll (s : GoString) (old new : Char) : GoString :=
  s.map fun c => if c = old then new else c

/-- Model of `strings.IndexByte`: the index of the first `c` in `s`, or `-1`. -/
def stringsIndexByte (s : GoString) (c : Char) : Int :=
  match s with
  | [] => -1
  | x :: xs =>
    if x = c then 0
    else if stringsIndexByte xs c = -1 then -1 else stringsIndexByte xs c + 1

/-- The slice expression `s[:hi]`: `none` is the run-time panic
"slice bounds out of range". -/
def sliceTo (s : GoString) (hi : Int) : Option GoString :=
  if 0 ≤ hi ∧ hi ≤ (s.length : Int) then some (s.take hi.toNat) else none

/-! ## external_id.go -/

/-- The maximum tolerated length of an IAM external ID. -/
def externalIDMaxSize : Nat := 1224

/-- The maximum tolerated length of an IAM external ID prefix. -/
def externalIDPrefixMaxSize : Nat := externalIDMaxSize - 63 - 253 - 3

/-- The three errors of `validateExternalIDPrefix`, in the order of its checks:
"must not be longer than %d characters", "must not contain a forward slash
character", "must contain only alphanumeric characters and _+=,.@:\-". -/
inductive PrefixError where
  | tooLong
  | forwardSlash
  | badCharacter
  deriving DecidableEq, Repr

/-- The Perl class `\w` of Go's regexp package: `[0-9A-Za-z_]`. -/
def isWordChar (c : Char) : Bool :=
  (decide ('0' ≤ c) && decide (c ≤ '9')) || (decide ('A' ≤ c) && decide (c ≤ 'Z'))
    || (decide ('a' ≤ c) && decide (c ≤ 'z')) || c == '_'

/-- Membership in the bracket expression of the pattern `[^\w+=,.@:\\-]` (in
the raw string literal of the source): `\w`, the characters `+ = , . @ :`, the
escaped backslash `\\`, and the final `-`, which is literal. -/
def inPatternClass (c : Char) : Bool :=
  isWordChar c || c == '+' || c == '=' || c == ',' || c == '.' || c == '@' || c == ':'
    || c == '\\' || c == '-'

/-- Model of `regexp.MustCompile("[^\w+=,.@:\\-]").MatchString(p)`: some
character of `p` is outside the bracket expression.  (A byte above 127 is
outside the class however the bytes are decoded.) -/
def patternMatchString (p : GoString) : Bool := p.any fun c => !inPatternClass c

/-- Embedding of `validateExternalIDPrefix`; `none` is the `nil` error. -/
def validateExternalIDPrefix (p : GoString) : Option PrefixError :=
  if p.length > externalIDPrefixMaxSize then some PrefixError.tooLong
  else if stringsIndexByte p '/' ≠ -1 then some PrefixError.forwardSlash
  else if patternMatchString p then some PrefixError.badCharacter
  else none

/-! ## credentials_getter.go -/

def arnPrefix : GoString := "arn:aws:iam::".toList

def roleARNSuffix : GoString := ":role".toList

def roleSessionNameMaxSize : Int := 64

/-- The body of `normalizePath`, on the levels in reverse order: the source
takes the last level, cuts it, and recurses on the levels before it, so the
recursion is structural on the reversed list.  The cut `last[:maxName]` is
taken before the recursive call, as in the source. -/
def normalizePathRev : List GoString → Int → Outcome GoString
  | [], _ => Outcome.value []
  | lastLevel :: before, remaining =>
    let last := stringsReplaceAll lastLevel ':' '_'
    let otherLevels : Int := before.length
    let maxName := remaining - (otherLevels * 2) - 1
    match (if (last.length : Int) > maxName then sliceTo last maxName else some last) with
    | none => Outcome.panicked
    | some last =>
      match normalizePathRev before (remaining - last.length - 1) with
      | Outcome.value p => Outcome.value (p ++ ['.'] ++ last)
      | Outcome.failure msg => Outcome.failure msg
      | Outcome.panicked => Outcome.panicked

/-- Embedding of `normalizePath(levels, remaining)`. -/
def normalizePath (levels : List GoString) (remaining : Int) : Outcome GoString :=
  normalizePathRev levels.reverse remaining

/-- The account identifier `normalizeRoleARN` computes from `parts[0]`:
`TrimPrefix` by `arnPrefix`, then `TrimSuffix` by `roleARNSuffix`. -/
def accountIDOf (part0 : GoString) : GoString :=
  stringsTrimSuffix (stringsTrimPrefix part0 arnPrefix) roleARNSuffix

/-- Embedding of `normalizeRoleARN`. -/
def normalizeRoleARN (roleARN : GoString) : Outcome GoString :=
  let parts := stringsSplit roleARN '/'
  if parts.length < 2 then Outcome.failure ("invalid roleARN: ".toList ++ roleARN)
  else
    let remainingChars := roleSessionNameMaxSize
    let accountID := accountIDOf (parts.headD [])
    let remainingChars := remainingChars - accountID.length
    match normalizePath parts.tail remainingChars with
    | Outcome.value path => Outcome.value (accountID ++ path)
    | Outcome.failure msg => Outcome.failure msg
    | Outcome.panicked => Outcome.panicked

/-- The request `sts.AssumeRoleInput`, with the fields `Get` sets.  A pointer
field that is left `nil` is `none`. -/
structure AssumeRoleInput where
  RoleArn : GoString
  RoleSessionName : GoString
  DurationSeconds : Int
  ExternalId : Option GoString
  deriving DecidableEq, Repr

/-- The `Credentials` member of `sts.AssumeRoleOutput`; its fields are pointers. -/
structure STSCredentials where
  AccessKeyId : Option GoString
  SecretAccessKey : Option GoString
  SessionToken : Option GoString
  Expiration : Option Int
  deriving DecidableEq, Repr

/-- The response `sts.AssumeRoleOutput`. -/
structure AssumeRoleOutput where
  Credentials : Option STSCredentials
  deriving DecidableEq, Repr

/-- Fetched credentials including expiration time (a time is an `Int`, the
zero time is `0`). -/
structure Credentials where
  RoleARN : GoString
  AccessKeyID : GoString
  SecretAccessKey : GoString
  SessionToken : GoString
  Expiration : Int
  deriving DecidableEq, Repr

/-- The credentials getter.  Its `svc.AssumeRole` is a function from the request
to the error or the response of the service. -/
structure STSCredentialsGetter where
  svc : AssumeRoleInput → Except GoString AssumeRoleOutput
  baseRoleARN : GoString
  externalIDPrefix : GoString

/-- What a call of `Get` did: the requests it sent to `svc.AssumeRole`, in
order, and how it ended. -/
structure GetRun where
  sent : List AssumeRoleInput
  result : Outcome Credentials

/-- Embedding of `STSCredentialsGetter.Get`.  `toSeconds d` stands for
`int64(d.Seconds())`, which goes through `float64`; `sessionDuration` is the
`time.Duration` in nanoseconds.  Reading `resp.Credentials` of a response
without credentials is a nil dereference. -/
def STSCredentialsGetter.Get (c : STSCredentialsGetter) (toSeconds : Int → Int)
    (role : GoString) (sessionDuration : Int) (externalID : GoString) : GetRun :=
  let roleARN := if stringsHasPrefix role arnPrefix then role else c.baseRoleARN ++ role
  match normalizeRoleARN roleARN with
  | Outcome.failure msg => { sent := [], result := Outcome.failure msg }
  | Outcome.panicked => { sent := [], result := Outcome.panicked }
  | Outcome.value roleSessionName =>
    let params : AssumeRoleInput :=
      { RoleArn := roleARN
        RoleSessionName := roleSessionName
        DurationSeconds := toSeconds sessionDuration
        ExternalId := if externalID.length > 0 then some externalID else none }
    match c.svc params with
    | Except.error msg => { sent := [params], result := Outcome.failure msg }
    | Except.ok resp =>
      match resp.Credentials with
      | none => { sent := [params], result := Outcome.panicked }
      | some creds =>
        { sent := [params]
          result := Outcome.value
            { RoleARN := roleARN
              AccessKeyID := creds.AccessKeyId.getD []
              SecretAccessKey := creds.SecretAccessKey.getD []
              SessionToken := creds.SessionToken.getD []
              Expiration := creds.Expiration.getD 0 } }

/-! ## Vocabulary of the properties -/

/-- Each piece behind a `.`: `.p1.p2...pn`. -/
def dotted (pieces : List GoString) : GoString := (pieces.map fun p => '.' :: p).flatten

/-- The characters the path segments and their separators take: the sum of
`len(s) + 1` over the segments. -/
def pathFootprint (segments : List GoString) : Nat := (segments.map fun s => s.length + 1).sum

/-- The last of the pieces of `s` between its `.` characters. -/
def lastDotSegment (s : GoString) : GoString := (stringsSplit s '.').getLastD []

/-- The role ARN `arn:aws:iam::<account>:role/<s1>/.../<sn>`. -/
def roleARNOf (account : GoString) (segments : List GoString) : GoString :=
  arnPrefix ++ account ++ roleARNSuffix ++ (segments.map fun s => '/' :: s).flatten

/-- A role whose ARN is plain: neither `/` nor `.` in the account identifier,
at least one path segment, every segment non-empty and without `/`, `.` and
`:`, and the account identifier with all segments and their separators within
the 64 characters of a session name. -/
def PlainRole (account : GoString) (segments : List GoString) : Prop :=
  '/' ∉ account ∧ '.' ∉ account ∧ segments ≠ [] ∧
    (∀ s ∈ segments, s ≠ [] ∧ '/' ∉ s ∧ '.' ∉ s ∧ ':' ∉ s) ∧
    account.length + pathFootprint segments ≤ 64

instance (account : GoString) (segments : List GoString) :
    Decidable (PlainRole account segments) := by
  unfold PlainRole
  infer_instance

/-- The session-name class `[\w+=,.@:\\-]` of the specification: ASCII letters,
digits, underscore, and the punctuation `+ = , . @ : \ -`. -/
def inSessionNameClass (c : Char) : Bool :=
  isWordChar c || decide (c ∈ ['+', '=', ',', '.', '@', ':', '\\', '-'])

/-! ## The character classes as the specification words them -/

def isAsciiLetter (c : Char) : Bool :=
  (decide ('A' ≤ c) && decide (c ≤ 'Z')) || (decide ('a' ≤ c) && decide (c ≤ 'z'))

def isAsciiDigit (c : Char) : Bool := decide ('0' ≤ c) && decide (c ≤ '9')

/-- The class `[A-Za-z0-9_+=,.@:\-]` of the specification, with `\-` read as
the hyphen: an ASCII letter, an ASCII digit, or one of `_ + = , . @ : -`. -/
def inSpecPrefixClass (c : Char) : Bool :=
  isAsciiLetter c || isAsciiDigit c || decide (c ∈ ['_', '+', '=', ',', '.', '@', ':', '-'])

/-- The characters the test "includes tolerated characters" relies on: ASCII
letters, ASCII digits, the characters `+ = , . @ : \ -` of its prefix, and the
underscore. -/
def toleratedInTest (c : Char) : Bool :=
  isAsciiLetter c || isAsciiDigit c || decide (c ∈ ['+', '=', ',', '.', '@', ':', '\\', '-', '_'])

/-! ## Lemmas on the library models -/

theorem stringsIndexByte_range (s : GoString) (c : Char) :
    stringsIndexByte s c = -1 ∨ 0 ≤ stringsIndexByte s c := by
  induction s with
  | nil => left; rfl
  | cons x xs ih =>
    unfold stringsIndexByte
    split_ifs with h1 h2
    · right; exact le_refl _
    · left; rfl
    · right; rcases ih with h | h
      · exact absurd h h2
      · omega

theorem stringsIndexByte_found (s : GoString) (c : Char) :
    stringsIndexByte s c ≠ -1 ↔ c ∈ s := by
  induction s with
  | nil => simp [stringsIndexByte]
  | cons x xs ih =>
    unfold stringsIndexByte
    have hr := stringsIndexByte_range xs c
    split_ifs with h1 h2
    · subst h1; simp
    · have : c ∉ xs := fun hm => (ih.mpr hm) h2
      simp [this, Ne.symm h1]
    · have hm : c ∈ xs := ih.mp h2
      constructor
      · intro _; exact List.mem_cons_of_mem _ hm
      · intro _; omega

theorem inPatternClass_eq_spec_or_backslash (c : Char) :
    inPatternClass c = (inSpecPrefixClass c || c == '\\') := by
  rw [Bool.eq_iff_iff]
  simp only [inPatternClass, inSpecPrefixClass, isWordChar, isAsciiLetter, isAsciiDigit,
    List.mem_cons, List.mem_singleton, List.not_mem_nil, or_false, Bool.or_eq_true,
    Bool.and_eq_true, decide_eq_true_eq, beq_iff_eq]
  tauto

theorem inPatternClass_eq_tolerated (c : Char) : inPatternClass c = toleratedInTest c := by
  rw [Bool.eq_iff_iff]
  simp only [inPatternClass, toleratedInTest, isWordChar, isAsciiLetter, isAsciiDigit,
    List.mem_cons, List.mem_singleton, List.not_mem_nil, or_false, Bool.or_eq_true,
    Bool.and_eq_true, decide_eq_true_eq, beq_iff_eq]
  tauto

theorem patternMatchString_iff (p : GoString) :
    patternMatchString p = true ↔ ∃ c ∈ p, inPatternClass c = false := by
  simp [patternMatchString, List.any_eq_true]

theorem validateExternalIDPrefix_none_iff (p : GoString) :
    validateExternalIDPrefix p = none ↔
      p.length ≤ externalIDPrefixMaxSize ∧ '/' ∉ p ∧ ∀ c ∈ p, inPatternClass c = true := by
  unfold validateExternalIDPrefix
  have hidx := stringsIndexByte_found p '/'
  have hpat := patternMatchString_iff p
  split_ifs with h1 h2 h3
  · simp; intro h; omega
  · simp; intro _ hs; exact absurd (hidx.mp h2) hs
  · obtain ⟨c, hc, hf⟩ := hpat.mp h3
    simp only [reduceCtorEq, false_iff, not_and, not_forall]
    intro _ _
    exact ⟨c, hc, by simp [hf]⟩
  · simp only [true_iff]
    refine ⟨by omega, fun hs => h2 (hidx.mpr hs), ?_⟩
    intro c hc
    by_contra hf
    exact h3 (hpat.mpr ⟨c, hc, by simpa using hf⟩)

theorem validateExternalIDPrefix_tooLong_iff (p : GoString) :
    validateExternalIDPrefix p = some PrefixError.tooLong ↔ externalIDPrefixMaxSize < p.length := by
  unfold validateExternalIDPrefix
  split_ifs <;> simp <;> omega

theorem externalIDPrefixMaxSize_eq : externalIDPrefixMaxSize = 905 := by decide

/-! ## Lemmas on `strings.Split` and the trimming functions -/

theorem stringsSplit_cons_sep (cs : GoString) (sep : Char) :
    stringsSplit (sep :: cs) sep = [] :: stringsSplit cs sep := by
  rw [stringsSplit, if_pos rfl]

theorem stringsSplit_cons_other (c : Char) (cs : GoString) (sep : Char) (h : c ≠ sep) :
    stringsSplit (c :: cs) sep
      = (c :: (stringsSplit cs sep).headD []) :: (stringsSplit cs sep).tail := by
  rw [stringsSplit, if_neg h]

theorem stringsSplit_ne_nil (s : GoString) (sep : Char) : stringsSplit s sep ≠ [] := by
  cases s with
  | nil => simp [stringsSplit]
  | cons c cs => unfold stringsSplit; split_ifs <;> simp

theorem stringsSplit_length (s : GoString) (sep : Char) :
    (stringsSplit s sep).length = s.count sep + 1 := by
  induction s with
  | nil => simp [stringsSplit]
  | cons c cs ih =>
    have hne := stringsSplit_ne_nil cs sep
    unfold stringsSplit
    split_ifs with h
    · subst h; simp [ih]
    · have hc : (c == sep) = false := by simpa using h
      rw [List.length_cons, List.length_tail, ih, List.count_cons, hc]
      simp

theorem stringsSplit_two_le (s : GoString) (sep : Char) :
    2 ≤ (stringsSplit s sep).length ↔ sep ∈ s := by
  rw [stringsSplit_length, ← List.count_pos_iff]
  omega

theorem stringsSplit_cons_tail (s : GoString) (sep : Char) :
    stringsSplit s sep = (stringsSplit s sep).headD [] :: (stringsSplit s sep).tail := by
  have := stringsSplit_ne_nil s sep
  cases h : stringsSplit s sep with
  | nil => exact absurd h this
  | cons a l => rfl

theorem stringsSplit_head (s : GoString) (sep : Char) :
    (stringsSplit s sep).headD [] = s.takeWhile fun c => c != sep := by
  induction s with
  | nil => rfl
  | cons c cs ih =>
    by_cases h : c = sep
    · subst h; rw [stringsSplit_cons_sep]; simp [List.takeWhile_cons]
    · have hc : (c != sep) = true := by simpa using h
      rw [stringsSplit_cons_other c cs sep h, List.takeWhile_cons, hc, ← ih]
      rfl

theorem stringsSplit_of_not_mem (a : GoString) (sep : Char) (h : sep ∉ a) :
    stringsSplit a sep = [a] := by
  induction a with
  | nil => rfl
  | cons c cs ih =>
    have hc : ¬ c = sep := fun e => h (e ▸ List.mem_cons_self _ _)
    have ih' := ih fun hm => h (List.mem_cons_of_mem _ hm)
    unfold stringsSplit
    simp [hc, ih']

theorem stringsSplit_append_sep (a b : GoString) (sep : Char) (h : sep ∉ a) :
    stringsSplit (a ++ sep :: b) sep = a :: stringsSplit b sep := by
  induction a with
  | nil => simp [stringsSplit]
  | cons c cs ih =>
    have hc : ¬ c = sep := fun e => h (e ▸ List.mem_cons_self _ _)
    have ih' := ih fun hm => h (List.mem_cons_of_mem _ hm)
    rw [List.cons_append, stringsSplit_cons_other c _ sep hc, ih']
    rfl

theorem stringsSplit_joined (sep : Char) (segs : List GoString) :
    ∀ a : GoString, sep ∉ a → (∀ s ∈ segs, sep ∉ s) →
      stringsSplit (a ++ (segs.map fun s => sep :: s).flatten) sep = a :: segs := by
  induction segs with
  | nil => intro a ha _; simpa using stringsSplit_of_not_mem a sep ha
  | cons s segs ih =>
    intro a ha hs
    have h1 := ih s (hs s (List.mem_cons_self _ _)) fun t ht => hs t (List.mem_cons_of_mem _ ht)
    simp only [List.map_cons, List.flatten_cons, List.cons_append]
    rw [stringsSplit_append_sep _ _ _ ha, h1]

theorem stringsSplit_getLastD_append_sep (a b : GoString) (sep : Char) :
    (stringsSplit (a ++ sep :: b) sep).getLastD [] = (stringsSplit b sep).getLastD [] := by
  induction a with
  | nil =>
    have := stringsSplit_cons_tail b sep
    rw [List.nil_append, stringsSplit_cons_sep, this]
    simp [List.getLastD_cons]
  | cons c cs ih =>
    have h2 : 2 ≤ (stringsSplit (cs ++ sep :: b) sep).length :=
      (stringsSplit_two_le _ _).mpr (by simp)
    rw [List.cons_append, ← ih]
    by_cases hc : c = sep
    · subst hc
      rw [stringsSplit_cons_sep]
      generalize stringsSplit (cs ++ c :: b) c = parts at h2 ⊢
      match parts, h2 with
      | x :: y :: rest, _ => simp [List.getLastD_cons]
    · rw [stringsSplit_cons_other c _ sep hc]
      generalize stringsSplit (cs ++ sep :: b) sep = parts at h2 ⊢
      match parts, h2 with
      | x :: y :: rest, _ => simp [List.getLastD_cons]

theorem lastDotSegment_append (front cut : GoString) (h : '.' ∉ cut) :
    lastDotSegment (front ++ '.' :: cut) = cut := by
  unfold lastDotSegment
  rw [stringsSplit_getLastD_append_sep, stringsSplit_of_not_mem _ _ h]
  rfl

theorem stringsTrimPrefix_append (pre x : GoString) : stringsTrimPrefix (pre ++ x) pre = x := by
  have : pre.isPrefixOf (pre ++ x) = true := List.isPrefixOf_iff_prefix.mpr (List.prefix_append _ _)
  simp [stringsTrimPrefix, stringsHasPrefix, this]

theorem stringsTrimSuffix_append (x suf : GoString) : stringsTrimSuffix (x ++ suf) suf = x := by
  have : suf.isSuffixOf (x ++ suf) = true := List.isSuffixOf_iff_suffix.mpr (List.suffix_append _ _)
  simp [stringsTrimSuffix, stringsHasSuffix, this]

theorem accountIDOf_wrapped (account : GoString) :
    accountIDOf (arnPrefix ++ account ++ roleARNSuffix) = account := by
  unfold accountIDOf
  rw [List.append_assoc, stringsTrimPrefix_append, stringsTrimSuffix_append]

/-! ## Lemmas on `normalizePath` -/

theorem stringsReplaceAll_length (s : GoString) (a b : Char) :
    (stringsReplaceAll s a b).length = s.length := by
  simp [stringsReplaceAll]

theorem cut_of_nonneg (last : GoString) (maxName : Int) (h : 0 ≤ maxName) :
    (if (last.length : Int) > maxName then sliceTo last maxName else some last)
      = some (last.take maxName.toNat) := by
  split_ifs with hlen
  · have : 0 ≤ maxName ∧ maxName ≤ (last.length : Int) := ⟨h, by omega⟩
    simp [sliceTo, this]
  · have : last.length ≤ maxName.toNat := by omega
    rw [List.take_of_length_le this]

theorem cut_of_neg (last : GoString) (maxName : Int) (h : maxName < 0) :
    (if (last.length : Int) > maxName then sliceTo last maxName else some last) = none := by
  have h1 : (last.length : Int) > maxName := by omega
  have h2 : ¬ (0 ≤ maxName ∧ maxName ≤ (last.length : Int)) := by omega
  simp [sliceTo, h1, h2]

theorem normalizePathRev_cons_of_neg (l : GoString) (before : List GoString) (r : Int)
    (h : r - (before.length : Int) * 2 - 1 < 0) :
    normalizePathRev (l :: before) r = Outcome.panicked := by
  simp only [normalizePathRev]
  rw [cut_of_neg _ _ h]

theorem normalizePathRev_cons_of_nonneg (l : GoString) (before : List GoString) (r : Int)
    (h : 0 ≤ r - (before.length : Int) * 2 - 1) (front : GoString)
    (hrec : normalizePathRev before
      (r - (((stringsReplaceAll l ':' '_').take (r - (before.length : Int) * 2 - 1).toNat).length : Int) - 1)
        = Outcome.value front) :
    normalizePathRev (l :: before) r = Outcome.value
      (front ++ ['.'] ++ (stringsReplaceAll l ':' '_').take (r - (before.length : Int) * 2 - 1).toNat) := by
  simp only [normalizePathRev]
  rw [cut_of_nonneg _ _ h]
  simp only [hrec]

theorem dotted_append (ps qs : List GoString) : dotted (ps ++ qs) = dotted ps ++ dotted qs := by
  simp [dotted]

theorem dotted_singleton (p : GoString) : dotted [p] = '.' :: p := by
  simp [dotted]

theorem pathFootprint_cons (s : GoString) (segs : List GoString) :
    pathFootprint (s :: segs) = s.length + 1 + pathFootprint segs := by
  simp [pathFootprint]

theorem pathFootprint_lower (segs : List GoString) (h : ∀ s ∈ segs, s ≠ []) :
    2 * segs.length ≤ pathFootprint segs := by
  induction segs with
  | nil => simp [pathFootprint]
  | cons s segs ih =>
    have hs : s ≠ [] := h s (List.mem_cons_self _ _)
    have hpos : 0 < s.length := List.length_pos.mpr hs
    have := ih fun t ht => h t (List.mem_cons_of_mem _ ht)
    rw [pathFootprint_cons, List.length_cons]
    omega

/-- Within the budget `2 * n - 1 ≤ remaining` the recursion returns a string of
at most `remaining` characters. -/
theorem normalizePathRev_value (rev : List GoString) :
    ∀ r : Int, 2 * (rev.length : Int) ≤ r + 1 → 0 ≤ r →
      ∃ p, normalizePathRev rev r = Outcome.value p ∧ (p.length : Int) ≤ r ∧
        (rev ≠ [] → 1 ≤ p.length) := by
  induction rev with
  | nil => intro r _ h0; exact ⟨[], rfl, by simpa using h0, fun h => absurd rfl h⟩
  | cons l before ih =>
    intro r hb h0
    rw [List.length_cons] at hb
    have hmax : 0 ≤ r - (before.length : Int) * 2 - 1 := by push_cast at hb; omega
    have hcut : (((stringsReplaceAll l ':' '_').take (r - (before.length : Int) * 2 - 1).toNat).length : Int)
        ≤ r - (before.length : Int) * 2 - 1 := by
      rw [List.length_take]; omega
    obtain ⟨front, hfront, hlen, _⟩ := ih
      (r - (((stringsReplaceAll l ':' '_').take (r - (before.length : Int) * 2 - 1).toNat).length : Int) - 1)
      (by omega) (by omega)
    refine ⟨_, normalizePathRev_cons_of_nonneg l before r hmax front hfront, ?_, ?_⟩
    · simp only [List.length_append, List.length_singleton]; push_cast; omega
    · intro _; simp only [List.length_append, List.length_singleton]; omega

/-- Over the budget the first cut is a slice with a negative bound. -/
theorem normalizePathRev_panicked (rev : List GoString) (r : Int) (hne : rev ≠ [])
    (h : r + 1 < 2 * (rev.length : Int)) : normalizePathRev rev r = Outcome.panicked := by
  cases rev with
  | nil => exact absurd rfl hne
  | cons l before =>
    apply normalizePathRev_cons_of_neg
    rw [List.length_cons] at h
    push_cast at h
    omega

/-- When every level is non-empty and all of them fit, nothing is cut. -/
theorem normalizePathRev_fits (rev : List GoString) :
    ∀ r : Int, (∀ l ∈ rev, l ≠ []) → (pathFootprint rev : Int) ≤ r →
      normalizePathRev rev r
        = Outcome.value (dotted (rev.reverse.map fun l => stringsReplaceAll l ':' '_')) := by
  induction rev with
  | nil => intro r _ _; rfl
  | cons l before ih =>
    intro r hne hfit
    have hne' : ∀ t ∈ before, t ≠ [] := fun t ht => hne t (List.mem_cons_of_mem _ ht)
    have hlow := pathFootprint_lower before hne'
    rw [pathFootprint_cons] at hfit
    push_cast at hfit
    have hmax : 0 ≤ r - (before.length : Int) * 2 - 1 := by omega
    have htake : (stringsReplaceAll l ':' '_').take (r - (before.length : Int) * 2 - 1).toNat
        = stringsReplaceAll l ':' '_' := by
      apply List.take_of_length_le
      rw [stringsReplaceAll_length]
      omega
    have hrec := ih (r - (((stringsReplaceAll l ':' '_').take
        (r - (before.length : Int) * 2 - 1).toNat).length : Int) - 1) hne'
        (by rw [htake, stringsReplaceAll_length]; omega)
    rw [normalizePathRev_cons_of_nonneg l before r hmax _ hrec, htake]
    simp [dotted_append, dotted_singleton]

/-- With exactly two characters per level, every level is cut to its first
character. -/
theorem normalizePathRev_tight (rev : List GoString) :
    ∀ r : Int, (∀ l ∈ rev, l ≠ []) → r = 2 * (rev.length : Int) →
      normalizePathRev rev r
        = Outcome.value (dotted (rev.reverse.map fun l => (stringsReplaceAll l ':' '_').take 1)) := by
  induction rev with
  | nil => intro r _ _; rfl
  | cons l before ih =>
    intro r hne hr
    have hne' : ∀ t ∈ before, t ≠ [] := fun t ht => hne t (List.mem_cons_of_mem _ ht)
    have hl : 0 < l.length := List.length_pos.mpr (hne l (List.mem_cons_self _ _))
    rw [List.length_cons] at hr
    push_cast at hr
    have hone : r - (before.length : Int) * 2 - 1 = 1 := by omega
    have hmax : 0 ≤ r - (before.length : Int) * 2 - 1 := by omega
    have hlen : ((stringsReplaceAll l ':' '_').take (r - (before.length : Int) * 2 - 1).toNat).length = 1 := by
      rw [hone, List.length_take, stringsReplaceAll_length]
      simp; omega
    have hrec := ih (r - (((stringsReplaceAll l ':' '_').take
        (r - (before.length : Int) * 2 - 1).toNat).length : Int) - 1) hne'
        (by rw [hlen]; push_cast; omega)
    rw [normalizePathRev_cons_of_nonneg l before r hmax _ hrec, hone]
    simp [dotted_append, dotted_singleton]

/-! ## Properties of `validateExternalIDPrefix` -/

/-- C4, as the specification words it, fails: the one-character prefix made of
a backslash lies outside `[A-Za-z0-9_+=,.@:\-]` (with `\-` the hyphen), and
`validateExternalIDPrefix` accepts it. -/
theorem validateExternalIDPrefix_accepts_backslash :
    (∃ c ∈ ['\\'], inSpecPrefixClass c = false) ∧ validateExternalIDPrefix ['\\'] = none := by
  decide

/-- C4, amended: `validateExternalIDPrefix` returns an error for every prefix
with a character that is neither in `[A-Za-z0-9_+=,.@:\-]` nor the backslash. -/
theorem validateExternalIDPrefix_rejects_outside_class (p : GoString)
    (h : ∃ c ∈ p, inSpecPrefixClass c = false ∧ c ≠ '\\') :
    validateExternalIDPrefix p ≠ none := by
  obtain ⟨c, hc, hspec, hbs⟩ := h
  intro hnone
  have hall := ((validateExternalIDPrefix_none_iff p).mp hnone).2.2 c hc
  rw [inPatternClass_eq_spec_or_backslash, hspec] at hall
  simp [hbs] at hall

theorem validateExternalIDPrefix_rejects_outside_class_witness :
    (∃ c ∈ "a!b".toList, inSpecPrefixClass c = false ∧ c ≠ '\\') ∧
      validateExternalIDPrefix "a!b".toList ≠ none :=
  ⟨by decide, validateExternalIDPrefix_rejects_outside_class "a!b".toList (by decide)⟩

/-- C5: a prefix made only of tolerated characters (ASCII letters and digits,
`+ = , . @ : \ -` and `_`) is accepted exactly when it is at most
`externalIDPrefixMaxSize = 1224 - 63 - 253 - 3 = 905` characters long. -/
theorem validateExternalIDPrefix_tolerated_iff_length (p : GoString)
    (h : ∀ c ∈ p, toleratedInTest c = true) :
    (validateExternalIDPrefix p = none ↔ p.length ≤ externalIDPrefixMaxSize) ∧
      externalIDPrefixMaxSize = 1224 - 63 - 253 - 3 ∧ externalIDPrefixMaxSize = 905 := by
  refine ⟨?_, by decide, by decide⟩
  rw [validateExternalIDPrefix_none_iff]
  constructor
  · exact fun hh => hh.1
  · intro hlen
    refine ⟨hlen, ?_, ?_⟩
    · intro hs
      have := h '/' hs
      revert this
      decide
    · intro c hc
      rw [inPatternClass_eq_tolerated]
      exact h c hc

theorem tolerated_replicate_a (n : Nat) : ∀ c ∈ List.replicate n 'a', toleratedInTest c = true := by
  intro c hc
  rw [List.eq_of_mem_replicate hc]
  decide

/-- The four length cases of the test table: the empty prefix, `"a"` and 905
times `a` are accepted, 906 times `a` is rejected. -/
theorem validateExternalIDPrefix_tolerated_iff_length_witness :
    validateExternalIDPrefix [] = none ∧
      validateExternalIDPrefix ['a'] = none ∧
      validateExternalIDPrefix (List.replicate 905 'a') = none ∧
      validateExternalIDPrefix (List.replicate 906 'a') ≠ none ∧
      validateExternalIDPrefix "az09+=,.@:\\-".toList = none :=
  ⟨(validateExternalIDPrefix_tolerated_iff_length [] (by decide)).1.mpr (by decide),
   (validateExternalIDPrefix_tolerated_iff_length ['a'] (by decide)).1.mpr (by decide),
   (validateExternalIDPrefix_tolerated_iff_length _ (tolerated_replicate_a 905)).1.mpr
     (by rw [List.length_replicate]; decide),
   fun hn => absurd
     ((validateExternalIDPrefix_tolerated_iff_length _ (tolerated_replicate_a 906)).1.mp hn)
     (by rw [List.length_replicate]; decide),
   (validateExternalIDPrefix_tolerated_iff_length "az09+=,.@:\\-".toList (by decide)).1.mpr
     (by decide)⟩

/-- C6: the length rule of `validateExternalIDPrefix` is the condition that the
composed external ID stays within 1224 characters: behind an accepted prefix,
every namespace name of at most 63 and object name of at most 253 characters
give, with the three delimiters, a total of at most 1224; a prefix for which
some such names give more than 1224 is rejected, by the length rule; and the
length rule rejects no other prefix. -/
theorem validateExternalIDPrefix_length_budget (p : GoString) :
    (validateExternalIDPrefix p = none →
        ∀ ns name : GoString, ns.length ≤ 63 → name.length ≤ 253 →
          p.length + ns.length + name.length + 3 ≤ externalIDMaxSize) ∧
      ((∃ ns name : GoString, ns.length ≤ 63 ∧ name.length ≤ 253 ∧
          externalIDMaxSize < p.length + ns.length + name.length + 3) →
        validateExternalIDPrefix p = some PrefixError.tooLong) ∧
      (validateExternalIDPrefix p = some PrefixError.tooLong →
        ∃ ns name : GoString, ns.length ≤ 63 ∧ name.length ≤ 253 ∧
          externalIDMaxSize < p.length + ns.length + name.length + 3) := by
  have hmax : externalIDMaxSize = 1224 := rfl
  have hpre := externalIDPrefixMaxSize_eq
  refine ⟨?_, ?_, ?_⟩
  · intro hnone ns name hns hname
    have := ((validateExternalIDPrefix_none_iff p).mp hnone).1
    omega
  · rintro ⟨ns, name, hns, hname, htot⟩
    rw [validateExternalIDPrefix_tooLong_iff]
    omega
  · intro hlong
    rw [validateExternalIDPrefix_tooLong_iff] at hlong
    refine ⟨List.replicate 63 'n', List.replicate 253 'o', ?_, ?_, ?_⟩ <;>
      simp only [List.length_replicate] <;> omega

theorem validateExternalIDPrefix_length_budget_witness :
    (List.replicate 905 'a').length + (List.replicate 63 'n').length
        + (List.replicate 253 'o').length + 3 ≤ externalIDMaxSize ∧
      validateExternalIDPrefix (List.replicate 906 'a') = some PrefixError.tooLong :=
  ⟨(validateExternalIDPrefix_length_budget (List.replicate 905 'a')).1
      ((validateExternalIDPrefix_none_iff _).mpr
        ⟨by rw [List.length_replicate]; decide,
         fun hs => absurd (List.eq_of_mem_replicate hs) (by decide),
         fun c hc => by rw [List.eq_of_mem_replicate hc]; decide⟩)
      _ _ (by rw [List.length_replicate]) (by rw [List.length_replicate]),
   (validateExternalIDPrefix_length_budget (List.replicate 906 'a')).2.1
      ⟨List.replicate 63 'n', List.replicate 253 'o', by rw [List.length_replicate],
        by rw [List.length_replicate],
        by simp only [List.length_replicate]; decide⟩⟩

/-! ## Properties of `normalizeRoleARN` and `normalizePath` -/

theorem normalizePath_snoc (before : List GoString) (last : GoString) (r : Int) :
    normalizePath (before ++ [last]) r = normalizePathRev (last :: before.reverse) r := by
  simp [normalizePath]

/-- The base case of the source: no level gives the empty string. -/
theorem normalizePath_nil (remaining : Int) : normalizePath [] remaining = Outcome.value [] := rfl

/-- The recursive case of the source, with `last = levels[len(levels)-1]` and
`before = levels[:len(levels)-1]`: the last level is replaced and cut, then the
levels before it are normalized with what remains. -/
theorem normalizePath_concat (before : List GoString) (lastLevel : GoString) (remaining : Int) :
    normalizePath (before ++ [lastLevel]) remaining =
      match (if ((stringsReplaceAll lastLevel ':' '_').length : Int)
            > remaining - ((before.length : Int) * 2) - 1
          then sliceTo (stringsReplaceAll lastLevel ':' '_')
            (remaining - ((before.length : Int) * 2) - 1)
          else some (stringsReplaceAll lastLevel ':' '_')) with
      | none => Outcome.panicked
      | some last =>
        match normalizePath before (remaining - last.length - 1) with
        | Outcome.value p => Outcome.value (p ++ ['.'] ++ last)
        | Outcome.failure msg => Outcome.failure msg
        | Outcome.panicked => Outcome.panicked := by
  rw [normalizePath_snoc]
  simp only [normalizePathRev, normalizePath, List.length_reverse]

theorem normalizeRoleARN_of_path (roleARN path : GoString) (hslash : '/' ∈ roleARN)
    (hpath : normalizePath (stringsSplit roleARN '/').tail
      (64 - ((accountIDOf ((stringsSplit roleARN '/').headD [])).length : Int))
        = Outcome.value path) :
    normalizeRoleARN roleARN
      = Outcome.value (accountIDOf ((stringsSplit roleARN '/').headD []) ++ path) := by
  have h2 : ¬ (stringsSplit roleARN '/').length < 2 := by
    have := (stringsSplit_two_le roleARN '/').mpr hslash
    omega
  simp only [normalizeRoleARN, if_neg h2, roleSessionNameMaxSize, hpath]

theorem normalizeRoleARN_panicked_of_over_budget (roleARN : GoString) (hslash : '/' ∈ roleARN)
    (hover : 64 < ((accountIDOf ((stringsSplit roleARN '/').headD [])).length : Int)
      + 2 * ((stringsSplit roleARN '/').tail.length : Int) - 1) :
    normalizeRoleARN roleARN = Outcome.panicked := by
  have h2 := (stringsSplit_two_le roleARN '/').mpr hslash
  have hlen : (stringsSplit roleARN '/').tail.length = (stringsSplit roleARN '/').length - 1 :=
    List.length_tail _
  have hne : (stringsSplit roleARN '/').tail.reverse ≠ [] := by
    intro h
    have := congrArg List.length h
    simp only [List.length_reverse, List.length_nil] at this
    omega
  have hp := normalizePathRev_panicked (stringsSplit roleARN '/').tail.reverse
    (64 - ((accountIDOf ((stringsSplit roleARN '/').headD [])).length : Int)) hne
    (by rw [List.length_reverse]; omega)
  have h2' : ¬ (stringsSplit roleARN '/').length < 2 := by omega
  simp only [normalizeRoleARN, if_neg h2', roleSessionNameMaxSize, normalizePath, hp]

/-- C1: for a role ARN with at least one `/`, account identifier `A` and `n`
path segments with `len(A) + 2*n - 1 <= 64`, `normalizeRoleARN` returns a
session name, of at least 1 and at most 64 characters. -/
theorem normalizeRoleARN_length_within_budget (roleARN : GoString) (hslash : '/' ∈ roleARN)
    (hbudget : ((accountIDOf ((stringsSplit roleARN '/').headD [])).length : Int)
      + 2 * ((stringsSplit roleARN '/').tail.length : Int) - 1 ≤ 64) :
    ∃ name, normalizeRoleARN roleARN = Outcome.value name ∧
      1 ≤ name.length ∧ name.length ≤ 64 := by
  have h2 := (stringsSplit_two_le roleARN '/').mpr hslash
  have hlen : (stringsSplit roleARN '/').tail.length = (stringsSplit roleARN '/').length - 1 :=
    List.length_tail _
  have hne : (stringsSplit roleARN '/').tail.reverse ≠ [] := by
    intro h
    have := congrArg List.length h
    simp only [List.length_reverse, List.length_nil] at this
    omega
  obtain ⟨path, hpath, hle, hpos⟩ := normalizePathRev_value (stringsSplit roleARN '/').tail.reverse
    (64 - ((accountIDOf ((stringsSplit roleARN '/').headD [])).length : Int))
    (by rw [List.length_reverse]; omega) (by omega)
  refine ⟨_, normalizeRoleARN_of_path roleARN path hslash hpath, ?_, ?_⟩
  · have := hpos hne
    rw [List.length_append]; omega
  · rw [List.length_append]; omega

theorem normalizeRoleARN_length_within_budget_witness :
    ∃ name, normalizeRoleARN "arn:aws:iam::123456789012:role/aaaaa/bbbbb/ccccccc".toList
        = Outcome.value name ∧ 1 ≤ name.length ∧ name.length ≤ 64 :=
  normalizeRoleARN_length_within_budget
    "arn:aws:iam::123456789012:role/aaaaa/bbbbb/ccccccc".toList (by decide) (by decide)

/-- C2, the code at the failing input: for the role with account `123456789012`
and 27 one-character path levels, `12 + 2*27 - 1 = 65` exceeds the budget of 64,
`maxName` is `-1` for the last level, and `normalizeRoleARN` ends in the panic of
the slice `last[:maxName]` instead of returning an error. -/
theorem normalizeRoleARN_panics_on_27_levels :
    normalizeRoleARN ("arn:aws:iam::123456789012:role".toList
        ++ (List.replicate 27 "/a".toList).flatten) = Outcome.panicked ∧
      ∀ msg, normalizeRoleARN ("arn:aws:iam::123456789012:role".toList
        ++ (List.replicate 27 "/a".toList).flatten) ≠ Outcome.failure msg := by
  have h : normalizeRoleARN ("arn:aws:iam::123456789012:role".toList
        ++ (List.replicate 27 "/a".toList).flatten) = Outcome.panicked :=
    normalizeRoleARN_panicked_of_over_budget _ (by decide) (by decide)
  exact ⟨h, fun msg hm => by rw [h] at hm; exact Outcome.noConfusion hm⟩

/-- C3, the code at the failing input: the path level `a!b` goes into the
session name unchanged, and `!` is outside the session-name class. -/
theorem normalizeRoleARN_keeps_exclamation_mark :
    normalizeRoleARN "arn:aws:iam::123456789012:role/a!b/name".toList
        = Outcome.value "123456789012.a!b.name".toList ∧
      ∃ c ∈ "123456789012.a!b.name".toList, inSessionNameClass c = false := by
  decide

/-- C10: when the account identifier `A` and the `n >= 1` non-empty path
segments with their separators fit in 64 characters, `normalizeRoleARN` returns
`A` followed by `.` and the segment, `:` replaced by `_`, for each segment in
order. -/
theorem normalizeRoleARN_untruncated (roleARN : GoString)
    (hseg : (stringsSplit roleARN '/').tail ≠ [])
    (hne : ∀ s ∈ (stringsSplit roleARN '/').tail, s ≠ [])
    (hfit : (accountIDOf ((stringsSplit roleARN '/').headD [])).length
      + pathFootprint (stringsSplit roleARN '/').tail ≤ 64) :
    normalizeRoleARN roleARN = Outcome.value
      (accountIDOf ((stringsSplit roleARN '/').headD [])
        ++ dotted ((stringsSplit roleARN '/').tail.map fun s => stringsReplaceAll s ':' '_')) := by
  have hslash : '/' ∈ roleARN := by
    rw [← stringsSplit_two_le]
    have := List.length_pos.mpr hseg
    rw [List.length_tail] at this
    omega
  apply normalizeRoleARN_of_path roleARN _ hslash
  have := normalizePathRev_fits (stringsSplit roleARN '/').tail.reverse
    (64 - ((accountIDOf ((stringsSplit roleARN '/').headD [])).length : Int))
    (fun l hl => hne l (List.mem_reverse.mp hl))
    (by
      have : pathFootprint (stringsSplit roleARN '/').tail.reverse
          = pathFootprint (stringsSplit roleARN '/').tail := by
        simp [pathFootprint, List.sum_reverse]
      rw [this]; omega)
  rw [List.reverse_reverse] at this
  exact this

theorem normalizeRoleARN_untruncated_witness :
    normalizeRoleARN "arn:aws:iam::123456789012:role/name".toList
        = Outcome.value "123456789012.name".toList ∧
      normalizeRoleARN "arn:aws:iam::123456789012:role/team:a/name".toList
        = Outcome.value "123456789012.team_a.name".toList :=
  ⟨normalizeRoleARN_untruncated "arn:aws:iam::123456789012:role/name".toList
      (by decide) (by decide) (by decide),
   normalizeRoleARN_untruncated "arn:aws:iam::123456789012:role/team:a/name".toList
      (by decide) (by decide) (by decide)⟩

theorem stringsReplaceAll_of_not_mem (s : GoString) (a b : Char) (h : a ∉ s) :
    stringsReplaceAll s a b = s := by
  unfold stringsReplaceAll
  conv_rhs => rw [← List.map_id s]
  apply List.map_congr_left
  intro c hc
  have : c ≠ a := fun e => h (e ▸ hc)
  simp [this]

theorem stringsSplit_roleARNOf (account : GoString) (segments : List GoString)
    (ha : '/' ∉ account) (hs : ∀ s ∈ segments, '/' ∉ s) :
    stringsSplit (roleARNOf account segments) '/'
      = (arnPrefix ++ account ++ roleARNSuffix) :: segments := by
  unfold roleARNOf
  apply stringsSplit_joined
  · simp only [List.mem_append, not_or]
    exact ⟨⟨by decide, ha⟩, by decide⟩
  · exact hs

theorem normalizeRoleARN_roleARNOf (account : GoString) (segments : List GoString)
    (h : PlainRole account segments) :
    normalizeRoleARN (roleARNOf account segments) = Outcome.value (account ++ dotted segments) := by
  obtain ⟨ha, _, hseg, hs, hfit⟩ := h
  have hsplit := stringsSplit_roleARNOf account segments ha fun s hm => (hs s hm).2.1
  have hslash : '/' ∈ roleARNOf account segments := by
    rw [← stringsSplit_two_le, hsplit]
    have := List.length_pos.mpr hseg
    simp only [List.length_cons]; omega
  have hrepl : (segments.map fun s => stringsReplaceAll s ':' '_') = segments := by
    conv_rhs => rw [← List.map_id segments]
    apply List.map_congr_left
    intro s hm
    exact stringsReplaceAll_of_not_mem s ':' '_' (hs s hm).2.2.2
  have hpath := normalizePathRev_fits segments.reverse (64 - (account.length : Int))
    (fun l hl => (hs l (List.mem_reverse.mp hl)).1)
    (by
      have : pathFootprint segments.reverse = pathFootprint segments := by
        simp [pathFootprint, List.sum_reverse]
      rw [this]; omega)
  rw [List.reverse_reverse, hrepl] at hpath
  have := normalizeRoleARN_of_path (roleARNOf account segments) (dotted segments) hslash
    (by
      rw [hsplit]
      simp only [List.headD_cons, List.tail_cons, accountIDOf_wrapped]
      exact hpath)
  rw [this, hsplit]
  simp only [List.headD_cons, accountIDOf_wrapped]

/-- C7, as stated, fails: the role `a` under the path `/team/` and the role
`team.a` without a path have distinct ARNs, both fit in 64 characters without
any cut, and both get the session name `123456789012.team.a`. -/
theorem normalizeRoleARN_aliases_slash_and_dot :
    "arn:aws:iam::123456789012:role/team/a".toList
        ≠ "arn:aws:iam::123456789012:role/team.a".toList ∧
      '/' ∈ "arn:aws:iam::123456789012:role/team/a".toList ∧
      '/' ∈ "arn:aws:iam::123456789012:role/team.a".toList ∧
      (accountIDOf ((stringsSplit "arn:aws:iam::123456789012:role/team/a".toList '/').headD [])).length
        + pathFootprint (stringsSplit "arn:aws:iam::123456789012:role/team/a".toList '/').tail ≤ 64 ∧
      (accountIDOf ((stringsSplit "arn:aws:iam::123456789012:role/team.a".toList '/').headD [])).length
        + pathFootprint (stringsSplit "arn:aws:iam::123456789012:role/team.a".toList '/').tail ≤ 64 ∧
      normalizeRoleARN "arn:aws:iam::123456789012:role/team/a".toList
        = Outcome.value "123456789012.team.a".toList ∧
      normalizeRoleARN "arn:aws:iam::123456789012:role/team.a".toList
        = Outcome.value "123456789012.team.a".toList := by
  decide

/-- C7, amended: two distinct role ARNs `arn:aws:iam::<account>:role/<s1>/.../<sn>`
whose account identifiers contain neither `/` nor `.`, whose segments are
non-empty and contain none of `/`, `.` and `:`, and which fit in 64 characters
get two different session names. -/
theorem normalizeRoleARN_distinct_on_plain_roles (account1 account2 : GoString)
    (segments1 segments2 : List GoString)
    (h1 : PlainRole account1 segments1) (h2 : PlainRole account2 segments2)
    (hne : roleARNOf account1 segments1 ≠ roleARNOf account2 segments2) :
    ∃ name1 name2,
      normalizeRoleARN (roleARNOf account1 segments1) = Outcome.value name1 ∧
      normalizeRoleARN (roleARNOf account2 segments2) = Outcome.value name2 ∧
      name1 ≠ name2 := by
  refine ⟨_, _, normalizeRoleARN_roleARNOf _ _ h1, normalizeRoleARN_roleARNOf _ _ h2, ?_⟩
  intro heq
  apply hne
  have hsplit := congrArg (fun n => stringsSplit n '.') heq
  simp only [dotted] at hsplit
  rw [stringsSplit_joined '.' segments1 account1 h1.2.1 (fun s hm => (h1.2.2.2.1 s hm).2.2.1),
    stringsSplit_joined '.' segments2 account2 h2.2.1 (fun s hm => (h2.2.2.2.1 s hm).2.2.1)]
    at hsplit
  injection hsplit with ha hs
  rw [ha, hs]

theorem normalizeRoleARN_distinct_on_plain_roles_witness :
    ∃ name1 name2,
      normalizeRoleARN "arn:aws:iam::123456789012:role/team/a".toList = Outcome.value name1 ∧
      normalizeRoleARN "arn:aws:iam::123456789012:role/team_a".toList = Outcome.value name2 ∧
      name1 ≠ name2 :=
  normalizeRoleARN_distinct_on_plain_roles "123456789012".toList "123456789012".toList
    ["team".toList, "a".toList] ["team_a".toList] (by decide) (by decide) (by decide)

/-- With two characters per level available, every level keeps a non-empty
beginning of itself (after the replacement of `:`). -/
theorem normalizePathRev_pieces (rev : List GoString) :
    ∀ r : Int, (∀ l ∈ rev, l ≠ []) → 2 * (rev.length : Int) ≤ r →
      ∃ pieces, normalizePathRev rev r = Outcome.value (dotted pieces) ∧
        List.Forall₂ (fun piece level => piece ≠ [] ∧ piece <+: stringsReplaceAll level ':' '_')
          pieces rev.reverse := by
  induction rev with
  | nil => intro r _ _; exact ⟨[], rfl, List.Forall₂.nil⟩
  | cons l before ih =>
    intro r hne hr
    have hne' : ∀ t ∈ before, t ≠ [] := fun t ht => hne t (List.mem_cons_of_mem _ ht)
    have hl : 0 < l.length := List.length_pos.mpr (hne l (List.mem_cons_self _ _))
    rw [List.length_cons] at hr
    push_cast at hr
    have hmax : 0 ≤ r - (before.length : Int) * 2 - 1 := by omega
    have hcut : (((stringsReplaceAll l ':' '_').take (r - (before.length : Int) * 2 - 1).toNat).length : Int)
        ≤ r - (before.length : Int) * 2 - 1 := by
      rw [List.length_take]; omega
    have hcutpos : 0 < ((stringsReplaceAll l ':' '_').take (r - (before.length : Int) * 2 - 1).toNat).length := by
      rw [List.length_take, stringsReplaceAll_length]; omega
    obtain ⟨pieces, hrec, hall⟩ := ih (r - (((stringsReplaceAll l ':' '_').take
        (r - (before.length : Int) * 2 - 1).toNat).length : Int) - 1) hne' (by omega)
    refine ⟨pieces ++ [(stringsReplaceAll l ':' '_').take (r - (before.length : Int) * 2 - 1).toNat],
      ?_, ?_⟩
    · rw [normalizePathRev_cons_of_nonneg l before r hmax _ hrec, dotted_append, dotted_singleton]
      simp
    · rw [List.reverse_cons]
      exact List.rel_append hall
        (List.Forall₂.cons ⟨List.length_pos.mp hcutpos, List.take_prefix _ _⟩ List.Forall₂.nil)

/-- C9, as stated, fails at two inputs within its hypotheses.  For the single
level `x.y` and budget 10 the result is `.x.y`: its last `.`-separated segment
is `y`, not the level `x.y` cut to `min(3, 9)` characters.  For the levels `:a`,
`bb` and budget 3, `maxName` is 0, the last level is at least that long, and
the result is `._.`: the other level is reduced to `_`, not to its first
character `:`. -/
theorem normalizePath_dot_in_last_level_colon_in_other :
    ((∀ l ∈ ["x.y".toList], l ≠ []) ∧ (2 * 1 - 1 : Int) ≤ 10 ∧
      normalizePath ["x.y".toList] 10 = Outcome.value ".x.y".toList ∧
      lastDotSegment ".x.y".toList = "y".toList ∧
      lastDotSegment ".x.y".toList ≠ (stringsReplaceAll "x.y".toList ':' '_').take
        (min ("x.y".toList.length : Int) (10 - 2 * (1 - 1) - 1)).toNat) ∧
    ((∀ l ∈ [":a".toList, "bb".toList], l ≠ []) ∧ (2 * 2 - 1 : Int) ≤ 3 ∧
      normalizePath [":a".toList, "bb".toList] 3 = Outcome.value "._.".toList ∧
      (3 : Int) - 2 * (2 - 1) - 1 ≤ ("bb".toList.length : Int) ∧
      "._.".toList ≠ dotted [":a".toList.take 1,
        (stringsReplaceAll "bb".toList ':' '_').take
          (min ("bb".toList.length : Int) (3 - 2 * (2 - 1) - 1)).toNat]) := by
  decide

/-- C9, amended: for `n >= 1` non-empty levels and `remaining >= 2*n - 1`,
`normalizePath` returns the other levels' pieces followed by `.` and the last
level, `:` replaced by `_`, cut to its first `min(len, maxName)` characters,
`maxName = remaining - 2*(n-1) - 1`; this cut is the last `.`-separated segment
of the result when the last level has no `.`; every other level keeps a
non-empty beginning of itself (after the replacement); and when the last level
is at least `maxName` long, every other level is reduced to the first
character of itself after the replacement. -/
theorem normalizePath_last_level_gets_most (before : List GoString) (last : GoString)
    (remaining : Int) (hne : ∀ l ∈ before ++ [last], l ≠ [])
    (hbudget : 2 * ((before ++ [last]).length : Int) - 1 ≤ remaining) :
    ∃ pieces,
      normalizePath (before ++ [last]) remaining = Outcome.value (dotted pieces ++ '.' ::
        (stringsReplaceAll last ':' '_').take
          (min (last.length : Int) (remaining - 2 * (before.length : Int) - 1)).toNat) ∧
      pieces.length = before.length ∧
      ('.' ∉ last →
        lastDotSegment (dotted pieces ++ '.' :: (stringsReplaceAll last ':' '_').take
            (min (last.length : Int) (remaining - 2 * (before.length : Int) - 1)).toNat)
          = (stringsReplaceAll last ':' '_').take
            (min (last.length : Int) (remaining - 2 * (before.length : Int) - 1)).toNat) ∧
      List.Forall₂ (fun piece level => piece ≠ [] ∧ piece <+: stringsReplaceAll level ':' '_')
        pieces before ∧
      (remaining - 2 * (before.length : Int) - 1 ≤ (last.length : Int) →
        pieces = before.map fun l => (stringsReplaceAll l ':' '_').take 1) := by
  have hne' : ∀ l ∈ before.reverse, l ≠ [] := fun l hl =>
    hne l (List.mem_append_left _ (List.mem_reverse.mp hl))
  rw [List.length_append, List.length_singleton] at hbudget
  push_cast at hbudget
  have hmax : 0 ≤ remaining - (before.reverse.length : Int) * 2 - 1 := by
    rw [List.length_reverse]; omega
  have hidx : remaining - (before.reverse.length : Int) * 2 - 1
      = remaining - 2 * (before.length : Int) - 1 := by
    rw [List.length_reverse]; ring
  have htake : (stringsReplaceAll last ':' '_').take
        (min (last.length : Int) (remaining - 2 * (before.length : Int) - 1)).toNat
      = (stringsReplaceAll last ':' '_').take
        (remaining - (before.reverse.length : Int) * 2 - 1).toNat := by
    rw [hidx]
    rcases le_total (last.length : Int) (remaining - 2 * (before.length : Int) - 1) with h | h
    · rw [min_eq_left h, List.take_of_length_le, List.take_of_length_le] <;>
        rw [stringsReplaceAll_length] <;> omega
    · rw [min_eq_right h]
  have hcutlen : (((stringsReplaceAll last ':' '_').take
        (remaining - (before.reverse.length : Int) * 2 - 1).toNat).length : Int)
      ≤ remaining - (before.reverse.length : Int) * 2 - 1 := by
    rw [List.length_take]; omega
  have hdotfree : ∀ front : GoString, '.' ∉ last →
      lastDotSegment (front ++ '.' :: (stringsReplaceAll last ':' '_').take
          (remaining - (before.reverse.length : Int) * 2 - 1).toNat)
        = (stringsReplaceAll last ':' '_').take
          (remaining - (before.reverse.length : Int) * 2 - 1).toNat := by
    intro front hdot
    apply lastDotSegment_append
    intro hmem
    have := List.mem_of_mem_take hmem
    simp only [stringsReplaceAll, List.mem_map] at this
    obtain ⟨c, hc, hcd⟩ := this
    by_cases hcc : c = ':'
    · rw [if_pos hcc] at hcd; revert hcd; decide
    · rw [if_neg hcc] at hcd; exact hdot (hcd ▸ hc)
  rw [normalizePath_snoc, htake]
  by_cases hlong : remaining - 2 * (before.length : Int) - 1 ≤ (last.length : Int)
  · have hlen : (((stringsReplaceAll last ':' '_').take
        (remaining - (before.reverse.length : Int) * 2 - 1).toNat).length : Int)
        = remaining - (before.reverse.length : Int) * 2 - 1 := by
      rw [List.length_take, stringsReplaceAll_length, hidx]; omega
    have htight := normalizePathRev_tight before.reverse
      (remaining - (((stringsReplaceAll last ':' '_').take
        (remaining - (before.reverse.length : Int) * 2 - 1).toNat).length : Int) - 1) hne'
      (by rw [hlen]; ring)
    rw [List.reverse_reverse] at htight
    have hout := normalizePathRev_cons_of_nonneg last before.reverse remaining hmax _ htight
    refine ⟨before.map fun l => (stringsReplaceAll l ':' '_').take 1, ?_, List.length_map _ _,
      hdotfree _, ?_, fun _ => rfl⟩
    · rw [hout]; simp
    · rw [List.forall₂_map_left_iff, List.forall₂_same]
      intro l hl
      refine ⟨?_, List.take_prefix _ _⟩
      have hpos : 0 < l.length := List.length_pos.mpr (hne l (List.mem_append_left _ hl))
      apply List.length_pos.mp
      rw [List.length_take, stringsReplaceAll_length]
      omega
  · obtain ⟨pieces, hrec, hall⟩ := normalizePathRev_pieces before.reverse
      (remaining - (((stringsReplaceAll last ':' '_').take
        (remaining - (before.reverse.length : Int) * 2 - 1).toNat).length : Int) - 1) hne'
      (by rw [List.length_reverse] at hcutlen ⊢; omega)
    rw [List.reverse_reverse] at hall
    have hout := normalizePathRev_cons_of_nonneg last before.reverse remaining hmax _ hrec
    refine ⟨pieces, ?_, hall.length_eq, hdotfree _, hall, fun h => absurd h hlong⟩
    rw [hout]; simp

theorem normalizePath_last_level_gets_most_witness :
    normalizePath ["aaaaa".toList, "bbbbb".toList, "ccccccc".toList] 12
      = Outcome.value ".a.b.ccccccc".toList := by
  obtain ⟨pieces, hout, _, _, _, hfirst⟩ := normalizePath_last_level_gets_most
    ["aaaaa".toList, "bbbbb".toList] "ccccccc".toList 12 (by decide) (by decide)
  rw [hfirst (by decide)] at hout
  exact hout

/-! ## Properties of `STSCredentialsGetter.Get` -/

/-- C8: when the session name is computed without error, `Get` sends exactly one
AssumeRole request; its `RoleArn` is `role` when `role` starts with
`arn:aws:iam::` and `baseRoleARN` followed by `role` otherwise; it has no
`ExternalId` when the external ID is empty and the given external ID
otherwise. -/
theorem Get_sends_resolved_role_and_external_id (c : STSCredentialsGetter)
    (toSeconds : Int → Int) (role : GoString) (sessionDuration : Int) (externalID : GoString)
    (hname : ∃ name, normalizeRoleARN
      (if stringsHasPrefix role arnPrefix then role else c.baseRoleARN ++ role)
        = Outcome.value name) :
    ∃ params, (c.Get toSeconds role sessionDuration externalID).sent = [params] ∧
      (arnPrefix <+: role → params.RoleArn = role) ∧
      (¬ arnPrefix <+: role → params.RoleArn = c.baseRoleARN ++ role) ∧
      (externalID = [] → params.ExternalId = none) ∧
      (externalID ≠ [] → params.ExternalId = some externalID) := by
  obtain ⟨name, hname⟩ := hname
  have hpre : stringsHasPrefix role arnPrefix = true ↔ arnPrefix <+: role := by
    unfold stringsHasPrefix
    exact List.isPrefixOf_iff_prefix
  refine ⟨{ RoleArn := if stringsHasPrefix role arnPrefix then role else c.baseRoleARN ++ role
            RoleSessionName := name
            DurationSeconds := toSeconds sessionDuration
            ExternalId := if externalID.length > 0 then some externalID else none }, ?_, ?_, ?_, ?_, ?_⟩
  · simp only [STSCredentialsGetter.Get, hname]
    cases c.svc _ with
    | error msg => rfl
    | ok resp =>
      cases hcr : resp.Credentials with
      | none => simp only [hcr]
      | some creds => simp only [hcr]
  · intro h
    show (if stringsHasPrefix role arnPrefix = true then role else c.baseRoleARN ++ role) = _
    rw [if_pos (hpre.mpr h)]
  · intro h
    have : ¬ stringsHasPrefix role arnPrefix = true := fun hh => h (hpre.mp hh)
    show (if stringsHasPrefix role arnPrefix = true then role else c.baseRoleARN ++ role) = _
    rw [if_neg this]
  · intro h; subst h; rfl
  · intro h
    have : 0 < externalID.length := List.length_pos.mpr h
    show (if externalID.length > 0 then some externalID else none) = _
    rw [if_pos this]

theorem Get_sends_resolved_role_and_external_id_witness :
    (∃ params,
      (STSCredentialsGetter.Get
        { svc := fun _ => Except.error "AccessDenied".toList
          baseRoleARN := "arn:aws:iam::123456789012:role/".toList
          externalIDPrefix := [] }
        (fun d => d / 1000000000) "team-a".toList 3600000000000 []).sent = [params] ∧
      params.RoleArn = "arn:aws:iam::123456789012:role/team-a".toList ∧
      params.ExternalId = none) ∧
    (∃ params,
      (STSCredentialsGetter.Get
        { svc := fun _ => Except.error "AccessDenied".toList
          baseRoleARN := "arn:aws:iam::123456789012:role/".toList
          externalIDPrefix := [] }
        (fun d => d / 1000000000) "arn:aws:iam::210987654321:role/team-b".toList
        3600000000000 "pre/ns/name".toList).sent = [params] ∧
      params.RoleArn = "arn:aws:iam::210987654321:role/team-b".toList ∧
      params.ExternalId = some "pre/ns/name".toList) := by
  constructor
  · obtain ⟨params, hsent, _, hbase, hnone, _⟩ := Get_sends_resolved_role_and_external_id
      { svc := fun _ => Except.error "AccessDenied".toList
        baseRoleARN := "arn:aws:iam::123456789012:role/".toList
        externalIDPrefix := [] }
      (fun d => d / 1000000000) "team-a".toList 3600000000000 []
      ⟨"123456789012.team-a".toList, by decide⟩
    exact ⟨params, hsent, hbase (by decide), hnone rfl⟩
  · obtain ⟨params, hsent, hfull, _, _, hsome⟩ := Get_sends_resolved_role_and_external_id
      { svc := fun _ => Except.error "AccessDenied".toList
        baseRoleARN := "arn:aws:iam::123456789012:role/".toList
        externalIDPrefix := [] }
      (fun d => d / 1000000000) "arn:aws:iam::210987654321:role/team-b".toList
      3600000000000 "pre/ns/name".toList
      ⟨"210987654321.team-b".toList, by decide⟩
    exact ⟨params, hsent, hfull (by decide), hsome (by decide)⟩

end KubeAwsIam
